import Mathlib

/-!
Shallow embedding of the `prepare_data` pipeline (MaiDucDuy05/map) and proofs
about its resumable batch ingestor, ranking/deduplication step, and OSM
collector deduplication.

Sources embedded:
- `src/prepare_data/import_to_qdrant.py` (`import_to_qdrant_with_langchain`)
  and `src/prepare_data/import_to_vectordb.py` (`main`, ingestion loop)
- `src/prepare_data/recommendatin_food.py`
  (`FoodRecommendationService._calculate_score`, `_deduplicate_and_rank`)
- `src/prepare_data/osm_collector.py` (`OSMCollector.collect_pois`)
-/

namespace MapSpec

/-! ### Resumable batch ingestor

`import_to_qdrant.py` constants: `BATCH_SIZE = 10`, `DELAY_SECONDS = 2`,
`MAX_RETRIES = 3` (lines 42-44).  `import_to_vectordb.py` uses the literal
batch size 5 and the literal retry bound 3 in `main`.  The store (`upsert`)
is abstracted as an environment `env : Nat → Nat → Bool`: `env b a = true`
iff the `a`-th attempt (0-based) at the `b`-th batch (0-based) does not
raise, i.e. the upsert succeeds. -/

def MAX_RETRIES : Nat := 3

def QDRANT_BATCH_SIZE : Nat := 10

def VECTORDB_BATCH_SIZE : Nat := 5

/-- Fuel-indexed worker for `chunks`; the fuel is an upper bound on the
number of chunks still to produce. -/
def chunksGo (B : Nat) : Nat → List α → List (List α)
  | 0, _ => []
  | _ + 1, [] => []
  | n + 1, a :: l => ((a :: l).take B) :: chunksGo B n ((a :: l).drop B)

/-- Embedding of the Python batching loop
`for i in range(0, len(l), B): batch = l[i : i + B]`:
the list of consecutive slices `l[0:B], l[B:2B], ...`. -/
def chunks (B : Nat) (l : List α) : List (List α) := chunksGo B l.length l

/-- Embedding of one batch's retry loop
(`while not success and retry_count < MAX_RETRIES`).  `fuel` is the number
of attempts still allowed (`MAX_RETRIES - retry_count`), `attempt` the
number of attempts already made.  Returns `(success, attempts made in
total)`. -/
def runBatchRetries (env : Nat → Bool) : Nat → Nat → Bool × Nat
  | 0, attempt => (false, attempt)
  | fuel + 1, attempt =>
    if env attempt then (true, attempt + 1) else runBatchRetries env fuel (attempt + 1)

/-- Observable outcome of one ingestion run: the Python return value
(`none` encodes a bare `return`, i.e. Python `None`), the full trace of
upsert calls as (batch index, batch) pairs (one entry per attempt,
successful or not), and the successfully committed batches in order. -/
structure RunResult (α : Type) where
  returned : Option Nat
  calls : List (Nat × List α)
  committed : List (List α)
deriving DecidableEq

/-- Embedding of the batch loop of `import_to_qdrant_with_langchain`
(lines 240-294): process batches in order, each with a bounded retry loop;
on success add `len(batch)` to the cumulative count `acc`; after
`MAX_RETRIES` failed attempts on one batch, stop the whole run and return
the count so far. -/
def processBatches (env : Nat → Nat → Bool) : Nat → Nat → List (List α) → RunResult α
  | _, acc, [] => ⟨some acc, [], []⟩
  | b, acc, batch :: rest =>
    let r := runBatchRetries (env b) MAX_RETRIES 0
    if r.1 then
      let res := processBatches env (b + 1) (acc + batch.length) rest
      ⟨res.returned, List.replicate r.2 (b, batch) ++ res.calls, batch :: res.committed⟩
    else
      ⟨some acc, List.replicate r.2 (b, batch), []⟩

/-- Embedding of the resume logic shared by both ingestion files,
parametric in the batch size `B`: if `existing_count >= total` return
immediately (bare `return`, no upsert); otherwise slice
`documents[existing_count:]` and run the batch loop on its `B`-sized
chunks. -/
def ingest (B : Nat) (documents : List α) (existing_count : Nat)
    (env : Nat → Nat → Bool) : RunResult α :=
  if documents.length ≤ existing_count then ⟨none, [], []⟩
  else processBatches env 0 0 (chunks B (documents.drop existing_count))

/-- Embedding of `import_to_qdrant_with_langchain` (import_to_qdrant.py,
lines 216-296): `ingest` at the module's `BATCH_SIZE = 10`. -/
def import_to_qdrant_with_langchain (documents : List α) (existing_count : Nat)
    (env : Nat → Nat → Bool) : RunResult α :=
  ingest QDRANT_BATCH_SIZE documents existing_count env

/-! ### Ranking score and deduplication (`recommendatin_food.py`) -/

/-- Embedding of `FoodRecommendationService._calculate_score`
(lines 476-488).  Python floats are modelled as exact rationals;
`rating=None` is `none`.  `review_count` is a non-negative int. -/
def calculate_score : Option ℚ → ℕ → ℚ
  | none, _ => 50
  | some rating, review_count =>
    let C : ℚ := 10
    let m : ℚ := 7
    let score := (C * m + (review_count : ℚ) * rating) / (C + (review_count : ℚ))
    (score / 10) * 100

/-- A candidate restaurant record as consumed by `_deduplicate_and_rank`:
only the fields the function reads (`name`, `url`, `score`). -/
structure Rest where
  name : String
  url : String
  score : ℚ
deriving DecidableEq

/-- Embedding of Python `str.lower()` on the string's characters. -/
def pyLower (s : String) : List Char := s.data.map Char.toLower

/-- Embedding of Python `str.strip()`: drop whitespace from both ends. -/
def pyStrip (l : List Char) : List Char :=
  ((l.dropWhile Char.isWhitespace).reverse.dropWhile Char.isWhitespace).reverse

/-- The normalized name `restaurant['name'].lower().strip()` used as a
dedup key component. -/
def normName (r : Rest) : List Char := pyStrip (pyLower r.name)

/-- Embedding of the dedup loop of `_deduplicate_and_rank` (lines
490-508): a record is skipped iff its normalized name is in `seen_names`
or its url is in `seen_urls`; a kept record adds both to the seen sets.
Python sets are modelled as lists (only membership is used). -/
def dedupAux : List (List Char) → List String → List Rest → List Rest
  | _, _, [] => []
  | seen_names, seen_urls, r :: rest =>
    if normName r ∈ seen_names ∨ r.url ∈ seen_urls then
      dedupAux seen_names seen_urls rest
    else
      r :: dedupAux (normName r :: seen_names) (r.url :: seen_urls) rest

/-- The comparison used by `unique.sort(key=lambda x: x['score'],
reverse=True)`: `a` may come before `b` iff `a`'s score is at least
`b`'s. -/
def scoreGe (a b : Rest) : Prop := b.score ≤ a.score

instance : DecidableRel scoreGe :=
  fun a b => inferInstanceAs (Decidable (b.score ≤ a.score))

instance : IsTotal Rest scoreGe := ⟨fun a b => le_total b.score a.score⟩

instance : IsTrans Rest scoreGe := ⟨fun _ _ _ h1 h2 => le_trans h2 h1⟩

/-- Embedding of `_deduplicate_and_rank` (lines 490-511): the dedup pass
followed by Python's stable in-place sort, descending by score.  Python's
`list.sort` is stable; it is modelled by the (stable) insertion sort with
the descending comparison `scoreGe`. -/
def deduplicate_and_rank (restaurants : List Rest) : List Rest :=
  List.insertionSort scoreGe (dedupAux [] [] restaurants)

/-! ### OSM collector deduplication (`osm_collector.py`) -/

/-- A raw POI as accumulated by `OSMCollector.collect_pois`; only the
`osm_id` key is read by the dedup step, `name` stands for the rest of the
payload. -/
structure POI where
  osm_id : String
  name : String
deriving DecidableEq

/-- One step of a Python dict build: inserting key `k` with value `v`
keeps the position of an existing key `k` but overwrites its value
(last write wins); a fresh key is appended. -/
def dictInsert (k : String) (v : POI) : List (String × POI) → List (String × POI)
  | [] => [(k, v)]
  | (k1, v1) :: rest =>
    if k1 = k then (k1, v) :: rest else (k1, v1) :: dictInsert k v rest

/-- The dict comprehension's left-to-right fold over the accumulated
POIs. -/
def osmFold : List POI → List (String × POI) → List (String × POI)
  | [], d => d
  | p :: rest, d => osmFold rest (dictInsert p.osm_id p d)

/-- Embedding of the dedup step of `collect_pois` (lines 69-71):
`unique_pois = {poi["osm_id"]: poi for poi in all_pois}.values()`. -/
def collect_pois (all_pois : List POI) : List POI :=
  (osmFold all_pois []).map Prod.snd

/-! ### Lemmas about the batching of the work list -/

theorem chunksGo_congr (B : Nat) (hB : 0 < B) :
    ∀ (n m : Nat) (l : List α), l.length ≤ n → l.length ≤ m →
      chunksGo B n l = chunksGo B m l := by
  intro n
  induction n with
  | zero =>
    intro m l hn _
    have hl : l = [] := List.eq_nil_of_length_eq_zero (Nat.le_zero.mp hn)
    subst hl
    cases m <;> rfl
  | succ n ih =>
    intro m l hn hm
    cases l with
    | nil => cases m <;> rfl
    | cons a t =>
      cases m with
      | zero => simp at hm
      | succ m =>
        simp only [chunksGo]
        congr 1
        apply ih
        · have : ((a :: t).drop B).length = (a :: t).length - B := List.length_drop B _
          omega
        · have : ((a :: t).drop B).length = (a :: t).length - B := List.length_drop B _
          omega

theorem chunks_nil (B : Nat) : chunks B ([] : List α) = [] := rfl

theorem chunks_cons (B : Nat) (hB : 0 < B) (a : α) (t : List α) :
    chunks B (a :: t) = ((a :: t).take B) :: chunks B ((a :: t).drop B) := by
  show chunksGo B (t.length + 1) (a :: t) = _
  simp only [chunksGo]
  congr 1
  apply chunksGo_congr B hB
  · have h1 : ((a :: t).drop B).length = (a :: t).length - B := List.length_drop B _
    have h2 : (a :: t).length = t.length + 1 := rfl
    omega
  · exact le_rfl

theorem chunks_eq_nil_iff (B : Nat) (hB : 0 < B) (l : List α) :
    chunks B l = [] ↔ l = [] := by
  cases l with
  | nil => simp [chunks_nil]
  | cons a t => simp [chunks_cons B hB]

theorem chunks_flatten (B : Nat) (hB : 0 < B) :
    ∀ (n : Nat) (l : List α), l.length ≤ n → (chunks B l).flatten = l := by
  intro n
  induction n with
  | zero =>
    intro l hn
    have hl : l = [] := List.eq_nil_of_length_eq_zero (Nat.le_zero.mp hn)
    subst hl
    rfl
  | succ n ih =>
    intro l hn
    cases l with
    | nil => rfl
    | cons a t =>
      rw [chunks_cons B hB, List.flatten_cons, ih]
      · exact List.take_append_drop B (a :: t)
      · have : ((a :: t).drop B).length = (a :: t).length - B := List.length_drop B _
        omega

theorem chunks_mem_length (B : Nat) (hB : 0 < B) :
    ∀ (n : Nat) (l : List α), l.length ≤ n →
      ∀ c ∈ chunks B l, 0 < c.length ∧ c.length ≤ B := by
  intro n
  induction n with
  | zero =>
    intro l hn c hc
    have hl : l = [] := List.eq_nil_of_length_eq_zero (Nat.le_zero.mp hn)
    subst hl
    simp [chunks_nil] at hc
  | succ n ih =>
    intro l hn c hc
    cases l with
    | nil => simp [chunks_nil] at hc
    | cons a t =>
      rw [chunks_cons B hB, List.mem_cons] at hc
      rcases hc with hc | hc
      · subst hc
        constructor
        · simp only [List.length_take, List.length_cons]
          omega
        · simp [List.length_take]
      · apply ih _ _ c hc
        have h1 : ((a :: t).drop B).length = (a :: t).length - B := List.length_drop B _
        have h2 : (a :: t).length = t.length + 1 := rfl
        omega

theorem chunks_dropLast_length (B : Nat) (hB : 0 < B) :
    ∀ (n : Nat) (l : List α), l.length ≤ n →
      ∀ c ∈ (chunks B l).dropLast, c.length = B := by
  intro n
  induction n with
  | zero =>
    intro l hn c hc
    have hl : l = [] := List.eq_nil_of_length_eq_zero (Nat.le_zero.mp hn)
    subst hl
    simp [chunks_nil] at hc
  | succ n ih =>
    intro l hn c hc
    cases l with
    | nil => simp [chunks_nil] at hc
    | cons a t =>
      rw [chunks_cons B hB] at hc
      rcases h : chunks B ((a :: t).drop B) with _ | ⟨c1, cs⟩
      · rw [h] at hc
        simp at hc
      · rw [h, List.dropLast_cons₂, List.mem_cons] at hc
        rcases hc with hc | hc
        · subst hc
          have hdrop : (a :: t).drop B ≠ [] := by
            intro hdn
            rw [(chunks_eq_nil_iff B hB _).mpr hdn] at h
            exact List.noConfusion h
          have hlen : B < (a :: t).length := by
            by_contra hcon
            exact hdrop (List.drop_eq_nil_of_le (by omega))
          simp only [List.length_take]
          omega
        · rw [← h] at hc
          apply ih _ _ c hc
          have h1 : ((a :: t).drop B).length = (a :: t).length - B := List.length_drop B _
          have h2 : (a :: t).length = t.length + 1 := rfl
          omega

/-! ### Lemmas about the retry loop and the batch loop -/

theorem runBatchRetries_allFalse (env : Nat → Bool) (h : ∀ a, env a = false) :
    ∀ (fuel attempt : Nat), runBatchRetries env fuel attempt = (false, fuel + attempt) := by
  intro fuel
  induction fuel with
  | zero => intro attempt; simp [runBatchRetries]
  | succ fuel ih =>
    intro attempt
    simp only [runBatchRetries, h attempt, Bool.false_eq_true, if_false, ih]
    congr 1
    omega

theorem runBatchRetries_first (env : Nat → Bool) (h : env 0 = true)
    (fuel : Nat) (hf : 0 < fuel) : runBatchRetries env fuel 0 = (true, 1) := by
  cases fuel with
  | zero => omega
  | succ fuel => simp [runBatchRetries, h]

theorem processBatches_success (env : Nat → Nat → Bool) (h : ∀ b a, env b a = true) :
    ∀ (batches : List (List α)) (b acc : Nat),
      processBatches env b acc batches =
        ⟨some (acc + (batches.map List.length).sum),
         (List.range' b batches.length).zip batches,
         batches⟩ := by
  intro batches
  induction batches with
  | nil => intro b acc; simp [processBatches]
  | cons batch rest ih =>
    intro b acc
    have hr : runBatchRetries (env b) MAX_RETRIES 0 = (true, 1) :=
      runBatchRetries_first (env b) (h b 0) MAX_RETRIES (by decide)
    simp only [processBatches, hr, if_true, ih (b + 1) (acc + batch.length),
      List.map_cons, List.sum_cons, List.length_cons, List.range', List.zip_cons_cons,
      List.replicate, List.singleton_append, Nat.add_assoc]

theorem processBatches_failAt (env : Nat → Nat → Bool) :
    ∀ (j : Nat) (batches : List (List α)) (b acc : Nat),
      j < batches.length →
      (∀ a, env (b + j) a = false) →
      (∀ i, i < j → env (b + i) 0 = true) →
      processBatches env b acc batches =
        ⟨some (acc + ((batches.take j).map List.length).sum),
         (List.range' b j).zip (batches.take j) ++
           List.replicate MAX_RETRIES (b + j, batches.getD j []),
         batches.take j⟩ := by
  intro j
  induction j with
  | zero =>
    intro batches b acc hlen hfail _
    cases batches with
    | nil => simp at hlen
    | cons batch rest =>
      have hr : runBatchRetries (env b) MAX_RETRIES 0 = (false, MAX_RETRIES) := by
        have := runBatchRetries_allFalse (env b) (by simpa using hfail) MAX_RETRIES 0
        simpa using this
      simp [processBatches, hr]
  | succ j ih =>
    intro batches b acc hlen hfail hgood
    cases batches with
    | nil => simp at hlen
    | cons batch rest =>
      have hr : runBatchRetries (env b) MAX_RETRIES 0 = (true, 1) :=
        runBatchRetries_first (env b) (hgood 0 (Nat.succ_pos j)) MAX_RETRIES (by decide)
      have hrec := ih rest (b + 1) (acc + batch.length)
        (by simpa using Nat.lt_of_succ_lt_succ hlen)
        (by intro a; have := hfail a; simpa [Nat.add_assoc, Nat.add_comm 1 j] using this)
        (by
          intro i hi
          have := hgood (i + 1) (Nat.succ_lt_succ hi)
          simpa [Nat.add_assoc, Nat.add_comm 1 i] using this)
      have hb : b + 1 + j = b + (j + 1) := by omega
      rw [hb] at hrec
      simp only [processBatches, hr, if_true, hrec, List.take_succ_cons, List.map_cons,
        List.sum_cons, List.range', List.zip_cons_cons, List.replicate,
        List.singleton_append, List.getD_cons_succ, Nat.add_assoc, List.cons_append,
        List.nil_append]

theorem countP_replicate_true (n : Nat) (x : α) (p : α → Bool) (hp : p x = true) :
    (List.replicate n x).countP p = n := by
  induction n with
  | zero => rfl
  | succ n ih => rw [List.replicate_succ, List.countP_cons, ih, hp]; simp

theorem runBatchRetries_succeeds (env : Nat → Bool) :
    ∀ (fuel attempt : Nat), (∃ a, a < fuel ∧ env (attempt + a) = true) →
      (runBatchRetries env fuel attempt).1 = true := by
  intro fuel
  induction fuel with
  | zero => intro attempt h; omega
  | succ fuel ih =>
    intro attempt h
    by_cases h0 : env attempt
    · simp [runBatchRetries, h0]
    · obtain ⟨a, ha, hea⟩ := h
      have hane : a ≠ 0 := by
        intro h0a
        subst h0a
        simp only [Nat.add_zero] at hea
        exact h0 hea
      obtain ⟨a1, rfl⟩ := Nat.exists_eq_succ_of_ne_zero hane
      simp only [runBatchRetries, h0, Bool.false_eq_true, if_false]
      apply ih
      exact ⟨a1, by omega, by simpa [Nat.add_assoc, Nat.add_comm 1 a1] using hea⟩

theorem processBatches_failAt_general (env : Nat → Nat → Bool) :
    ∀ (j : Nat) (batches : List (List α)) (b acc : Nat),
      j < batches.length →
      (∀ a, env (b + j) a = false) →
      (∀ i, i < j → ∃ a, a < MAX_RETRIES ∧ env (b + i) a = true) →
      (processBatches env b acc batches).returned
          = some (acc + ((batches.take j).map List.length).sum) ∧
      (processBatches env b acc batches).committed = batches.take j ∧
      (processBatches env b acc batches).calls.countP (fun c => c.1 == b + j)
          = MAX_RETRIES ∧
      (∀ c ∈ (processBatches env b acc batches).calls, c.1 ≤ b + j) := by
  intro j
  induction j with
  | zero =>
    intro batches b acc hlen hfail _
    cases batches with
    | nil => simp at hlen
    | cons batch rest =>
      have hr : runBatchRetries (env b) MAX_RETRIES 0 = (false, MAX_RETRIES) := by
        have := runBatchRetries_allFalse (env b) (by simpa using hfail) MAX_RETRIES 0
        simpa using this
      refine ⟨by simp [processBatches, hr], by simp [processBatches, hr], ?_, ?_⟩
      · simp only [processBatches, hr]
        exact countP_replicate_true _ _ _ (by simp)
      · intro c hc
        simp only [processBatches, hr] at hc
        have := List.eq_of_mem_replicate hc
        subst this
        omega
  | succ j ih =>
    intro batches b acc hlen hfail hgood
    cases batches with
    | nil => simp at hlen
    | cons batch rest =>
      have hr1 : (runBatchRetries (env b) MAX_RETRIES 0).1 = true := by
        obtain ⟨a, ha, hea⟩ := hgood 0 (Nat.succ_pos j)
        exact runBatchRetries_succeeds (env b) MAX_RETRIES 0
          ⟨a, ha, by simpa using hea⟩
      have hrec := ih rest (b + 1) (acc + batch.length)
        (by simpa using Nat.lt_of_succ_lt_succ hlen)
        (by intro a; have := hfail a
            simpa [Nat.add_assoc, Nat.add_comm 1 j] using this)
        (by intro i hi
            obtain ⟨a, ha, hea⟩ := hgood (i + 1) (Nat.succ_lt_succ hi)
            exact ⟨a, ha, by simpa [Nat.add_assoc, Nat.add_comm 1 i] using hea⟩)
      have hb1 : b + 1 + j = b + (j + 1) := by omega
      rw [hb1] at hrec
      have hnej : ((b, batch).1 == b + (j + 1)) = false := by
        simp only [beq_eq_false_iff_ne, ne_eq]
        omega
      refine ⟨?_, ?_, ?_, ?_⟩
      · simp only [processBatches, hr1, if_true, hrec.1, List.take_succ_cons,
          List.map_cons, List.sum_cons, Nat.add_assoc]
      · simp only [processBatches, hr1, if_true, hrec.2.1, List.take_succ_cons]
      · simp only [processBatches, hr1, if_true, List.countP_append, hrec.2.2.1]
        have hz : (List.replicate (runBatchRetries (env b) MAX_RETRIES 0).2
            (b, batch)).countP (fun c => c.1 == b + (j + 1)) = 0 := by
          rw [List.countP_eq_zero]
          intro c hc
          have := List.eq_of_mem_replicate hc
          subst this
          simp only [hnej, Bool.false_eq_true, not_false_eq_true]
        rw [hz, Nat.zero_add]
      · intro c hc
        simp only [processBatches, hr1, if_true, List.mem_append] at hc
        rcases hc with hc | hc
        · have := List.eq_of_mem_replicate hc
          subst this
          omega
        · exact hrec.2.2.2 c hc

theorem ingest_committed (B : Nat) (docs : List α) (k : Nat) (env : Nat → Nat → Bool)
    (henv : ∀ b a, env b a = true) :
    (ingest B docs k env).committed = chunks B (docs.drop k) := by
  by_cases h : docs.length ≤ k
  · have hd : docs.drop k = [] := List.drop_eq_nil_of_le h
    simp [ingest, h, hd, chunks_nil]
  · simp [ingest, h, processBatches_success env henv]

/-! ### Lemmas about the dedup pass -/

theorem dedupAux_not_seen :
    ∀ (l : List Rest) (sn : List (List Char)) (su : List String) (r : Rest),
      r ∈ dedupAux sn su l → normName r ∉ sn ∧ r.url ∉ su := by
  intro l
  induction l with
  | nil => intro sn su r hr; simp [dedupAux] at hr
  | cons h t ih =>
    intro sn su r hr
    rw [dedupAux] at hr
    by_cases hskip : normName h ∈ sn ∨ h.url ∈ su
    · rw [if_pos hskip] at hr
      exact ih sn su r hr
    · rw [if_neg hskip, List.mem_cons] at hr
      rcases hr with hr | hr
      · subst hr
        exact ⟨fun hn => hskip (Or.inl hn), fun hu => hskip (Or.inr hu)⟩
      · have := ih _ _ r hr
        exact ⟨fun hn => this.1 (List.mem_cons_of_mem _ hn),
               fun hu => this.2 (List.mem_cons_of_mem _ hu)⟩

theorem dedupAux_pairwise :
    ∀ (l : List Rest) (sn : List (List Char)) (su : List String),
      (dedupAux sn su l).Pairwise
        (fun a b => normName a ≠ normName b ∧ a.url ≠ b.url) := by
  intro l
  induction l with
  | nil => intro sn su; simp [dedupAux]
  | cons h t ih =>
    intro sn su
    rw [dedupAux]
    by_cases hskip : normName h ∈ sn ∨ h.url ∈ su
    · rw [if_pos hskip]
      exact ih sn su
    · rw [if_neg hskip]
      refine List.Pairwise.cons ?_ (ih _ _)
      intro r hr
      have := dedupAux_not_seen t _ _ r hr
      constructor
      · intro he
        exact this.1 (he ▸ List.mem_cons_self _ _)
      · intro he
        exact this.2 (he ▸ List.mem_cons_self _ _)

theorem dedupAux_sublist :
    ∀ (l : List Rest) (sn : List (List Char)) (su : List String),
      List.Sublist (dedupAux sn su l) l := by
  intro l
  induction l with
  | nil => intro sn su; simp [dedupAux]
  | cons h t ih =>
    intro sn su
    rw [dedupAux]
    by_cases hskip : normName h ∈ sn ∨ h.url ∈ su
    · rw [if_pos hskip]
      exact (ih sn su).cons h
    · rw [if_neg hskip]
      exact (ih _ _).cons₂ h

theorem dedupAux_eq_self :
    ∀ (l : List Rest) (sn : List (List Char)) (su : List String),
      l.Pairwise (fun a b => normName a ≠ normName b) →
      l.Pairwise (fun a b => a.url ≠ b.url) →
      (∀ r ∈ l, normName r ∉ sn ∧ r.url ∉ su) →
      dedupAux sn su l = l := by
  intro l
  induction l with
  | nil => intro sn su _ _ _; rfl
  | cons h t ih =>
    intro sn su hpn hpu hseen
    have hh := hseen h (List.mem_cons_self _ _)
    rw [dedupAux, if_neg (by push_neg; exact hh)]
    congr 1
    apply ih _ _ hpn.of_cons hpu.of_cons
    intro r hr
    refine ⟨?_, ?_⟩
    · rw [List.mem_cons]
      push_neg
      refine ⟨?_, (hseen r (List.mem_cons_of_mem _ hr)).1⟩
      exact fun he => (List.pairwise_cons.mp hpn).1 r hr he.symm
    · rw [List.mem_cons]
      push_neg
      refine ⟨?_, (hseen r (List.mem_cons_of_mem _ hr)).2⟩
      exact fun he => (List.pairwise_cons.mp hpu).1 r hr he.symm

theorem dedupAux_first_occurrence :
    ∀ (l : List Rest) (sn : List (List Char)) (su : List String) (r : Rest),
      r ∈ dedupAux sn su l →
      ∃ pre post, l = pre ++ r :: post ∧
        ∀ x ∈ pre, ¬(normName x = normName r ∧ x.url = r.url) := by
  intro l
  induction l with
  | nil => intro sn su r hr; simp [dedupAux] at hr
  | cons h t ih =>
    intro sn su r hr
    have hns := dedupAux_not_seen (h :: t) sn su r hr
    rw [dedupAux] at hr
    by_cases hskip : normName h ∈ sn ∨ h.url ∈ su
    · rw [if_pos hskip] at hr
      obtain ⟨pre, post, hsplit, hpre⟩ := ih sn su r hr
      refine ⟨h :: pre, post, by rw [hsplit, List.cons_append], ?_⟩
      intro x hx
      rw [List.mem_cons] at hx
      rcases hx with hx | hx
      · subst hx
        rintro ⟨hn, hu⟩
        rcases hskip with hs | hs
        · exact hns.1 (hn ▸ hs)
        · exact hns.2 (hu ▸ hs)
      · exact hpre x hx
    · rw [if_neg hskip, List.mem_cons] at hr
      rcases hr with hr | hr
      · subst hr
        exact ⟨[], t, rfl, by simp⟩
      · obtain ⟨pre, post, hsplit, hpre⟩ := ih _ _ r hr
        refine ⟨h :: pre, post, by rw [hsplit, List.cons_append], ?_⟩
        intro x hx
        rw [List.mem_cons] at hx
        rcases hx with hx | hx
        · subst hx
          rintro ⟨hn, _⟩
          have := dedupAux_not_seen t _ _ r hr
          exact this.1 (hn ▸ List.mem_cons_self _ _)
        · exact hpre x hx

/-! ### Lemmas about the stable descending sort -/

theorem orderedInsert_filter_eq (r : Rest) (s : ℚ) (h : r.score = s) :
    ∀ l : List Rest,
      (List.orderedInsert scoreGe r l).filter (fun x => x.score == s) =
        r :: l.filter (fun x => x.score == s) := by
  have hb : (r.score == s) = true := by simp [h]
  intro l
  induction l with
  | nil => simp [List.orderedInsert, List.filter_cons, hb]
  | cons x xs ih =>
    rw [List.orderedInsert]
    by_cases hx : scoreGe r x
    · rw [if_pos hx]
      simp [List.filter_cons, hb]
    · rw [if_neg hx]
      have hxs : (x.score == s) = false := by
        simp only [beq_eq_false_iff_ne, ne_eq]
        intro he
        exact hx (le_of_eq (by rw [he, h]))
      simp [List.filter_cons, hxs, ih]

theorem orderedInsert_filter_ne (r : Rest) (s : ℚ) (h : ¬ r.score = s) :
    ∀ l : List Rest,
      (List.orderedInsert scoreGe r l).filter (fun x => x.score == s) =
        l.filter (fun x => x.score == s) := by
  have hb : (r.score == s) = false := by simp [h]
  intro l
  induction l with
  | nil => simp [List.orderedInsert, List.filter_cons, hb]
  | cons x xs ih =>
    rw [List.orderedInsert]
    by_cases hx : scoreGe r x
    · rw [if_pos hx]
      simp [List.filter_cons, hb]
    · rw [if_neg hx]
      simp [List.filter_cons, ih]

theorem insertionSort_filter (s : ℚ) :
    ∀ l : List Rest,
      (List.insertionSort scoreGe l).filter (fun x => x.score == s) =
        l.filter (fun x => x.score == s) := by
  intro l
  induction l with
  | nil => rfl
  | cons r t ih =>
    rw [List.insertionSort]
    by_cases h : r.score = s
    · rw [orderedInsert_filter_eq r s h, ih, List.filter_cons]
      simp [h]
    · rw [orderedInsert_filter_ne r s h, ih, List.filter_cons]
      simp [h]

theorem countP_le_one_of_pairwise_ne :
    ∀ (L : List Rest), L.Pairwise (fun a b => normName a ≠ normName b) →
      ∀ (k : List Char) (u : String),
        L.countP (fun r => normName r == k && r.url == u) ≤ 1 := by
  intro L
  induction L with
  | nil => intro _ k u; simp
  | cons h t ih =>
    intro hp k u
    rw [List.countP_cons]
    by_cases hh : normName h == k && h.url == u
    · have hk : normName h = k := by
        have := (Bool.and_eq_true _ _).mp hh
        exact beq_iff_eq.mp this.1
      have ht0 : t.countP (fun r => normName r == k && r.url == u) = 0 := by
        rw [List.countP_eq_zero]
        intro r hr
        have hne := (List.pairwise_cons.mp hp).1 r hr
        simp only [Bool.and_eq_true, beq_iff_eq, not_and]
        intro hrk
        exact absurd (hrk.trans hk.symm) (fun he => hne he.symm)
      simp [ht0, hh]
    · have : (if (fun r => normName r == k && r.url == u) h then 1 else 0) = 0 := by
        simp [hh]
      rw [this, Nat.add_zero]
      exact ih hp.of_cons k u

/-! ### Lemmas about the dict build in the OSM collector -/

theorem dictInsert_mem_keys (k : String) (v : POI) :
    ∀ (d : List (String × POI)) (x : String × POI),
      x ∈ dictInsert k v d → x.1 = k ∨ x ∈ d := by
  intro d
  induction d with
  | nil =>
    intro x hx
    simp only [dictInsert, List.mem_singleton] at hx
    subst hx
    exact Or.inl rfl
  | cons kv rest ih =>
    intro x hx
    obtain ⟨k1, v1⟩ := kv
    rw [dictInsert] at hx
    by_cases hk : k1 = k
    · rw [if_pos hk, List.mem_cons] at hx
      rcases hx with hx | hx
      · subst hx; exact Or.inl hk
      · exact Or.inr (List.mem_cons_of_mem _ hx)
    · rw [if_neg hk, List.mem_cons] at hx
      rcases hx with hx | hx
      · subst hx; exact Or.inr (List.mem_cons_self _ _)
      · rcases ih x hx with hx | hx
        · exact Or.inl hx
        · exact Or.inr (List.mem_cons_of_mem _ hx)

theorem dictInsert_pairwise (k : String) (v : POI) :
    ∀ (d : List (String × POI)), d.Pairwise (fun a b => a.1 ≠ b.1) →
      (dictInsert k v d).Pairwise (fun a b => a.1 ≠ b.1) := by
  intro d
  induction d with
  | nil => intro _; simp [dictInsert]
  | cons kv rest ih =>
    intro hp
    obtain ⟨k1, v1⟩ := kv
    rw [dictInsert]
    by_cases hk : k1 = k
    · rw [if_pos hk]
      exact List.Pairwise.cons (List.pairwise_cons.mp hp).1 hp.of_cons
    · rw [if_neg hk]
      refine List.Pairwise.cons ?_ (ih hp.of_cons)
      intro x hx
      rcases dictInsert_mem_keys k v rest x hx with hx1 | hx1
      · rw [hx1]; exact hk
      · exact (List.pairwise_cons.mp hp).1 x hx1

theorem dictInsert_mem_of_pairwise (k : String) (v : POI) :
    ∀ (d : List (String × POI)), d.Pairwise (fun a b => a.1 ≠ b.1) →
      ∀ (x : String × POI), x ∈ dictInsert k v d →
        (x.1 = k ∧ x.2 = v) ∨ (x ∈ d ∧ x.1 ≠ k) := by
  intro d
  induction d with
  | nil =>
    intro _ x hx
    simp only [dictInsert, List.mem_singleton] at hx
    subst hx
    exact Or.inl ⟨rfl, rfl⟩
  | cons kv rest ih =>
    intro hp x hx
    obtain ⟨k1, v1⟩ := kv
    rw [dictInsert] at hx
    by_cases hk : k1 = k
    · rw [if_pos hk, List.mem_cons] at hx
      rcases hx with hx | hx
      · subst hx; exact Or.inl ⟨hk, rfl⟩
      · refine Or.inr ⟨List.mem_cons_of_mem _ hx, ?_⟩
        have := (List.pairwise_cons.mp hp).1 x hx
        rw [← hk]
        exact fun he => this he.symm
    · rw [if_neg hk, List.mem_cons] at hx
      rcases hx with hx | hx
      · subst hx
        exact Or.inr ⟨List.mem_cons_self _ _, hk⟩
      · rcases ih hp.of_cons x hx with hx1 | hx1
        · exact Or.inl hx1
        · exact Or.inr ⟨List.mem_cons_of_mem _ hx1.1, hx1.2⟩

theorem dictInsert_values (p : POI) :
    ∀ (d : List (String × POI)), (∀ x ∈ d, x.2.osm_id = x.1) →
      ∀ x ∈ dictInsert p.osm_id p d, x.2.osm_id = x.1 := by
  intro d
  induction d with
  | nil =>
    intro _ x hx
    simp only [dictInsert, List.mem_singleton] at hx
    subst hx
    rfl
  | cons kv rest ih =>
    intro hinv x hx
    obtain ⟨k1, v1⟩ := kv
    rw [dictInsert] at hx
    by_cases hk : k1 = p.osm_id
    · rw [if_pos hk, List.mem_cons] at hx
      rcases hx with hx | hx
      · subst hx
        exact hk.symm
      · exact hinv x (List.mem_cons_of_mem _ hx)
    · rw [if_neg hk, List.mem_cons] at hx
      rcases hx with hx | hx
      · subst hx
        exact hinv _ (List.mem_cons_self _ _)
      · exact ih (fun y hy => hinv y (List.mem_cons_of_mem _ hy)) x hx

theorem osmFold_spec :
    ∀ (l : List POI) (d : List (String × POI)),
      d.Pairwise (fun a b => a.1 ≠ b.1) →
      (∀ x ∈ d, x.2.osm_id = x.1) →
      (osmFold l d).Pairwise (fun a b => a.1 ≠ b.1) ∧
      (∀ x ∈ osmFold l d, x.2.osm_id = x.1) ∧
      (∀ kv ∈ osmFold l d,
        (∃ pre post, l = pre ++ kv.2 :: post ∧ ∀ q ∈ post, q.osm_id ≠ kv.1) ∨
        (kv ∈ d ∧ ∀ q ∈ l, q.osm_id ≠ kv.1)) := by
  intro l
  induction l with
  | nil =>
    intro d hp hinv
    refine ⟨hp, hinv, ?_⟩
    intro kv hkv
    exact Or.inr ⟨hkv, by simp⟩
  | cons p rest ih =>
    intro d hp hinv
    have hp1 := dictInsert_pairwise p.osm_id p d hp
    have hinv1 := dictInsert_values p d hinv
    obtain ⟨hfp, hfinv, hfocc⟩ := ih (dictInsert p.osm_id p d) hp1 hinv1
    refine ⟨hfp, hfinv, ?_⟩
    intro kv hkv
    rcases hfocc kv hkv with hocc | ⟨hmem, hrest⟩
    · obtain ⟨pre, post, hsplit, hpost⟩ := hocc
      exact Or.inl ⟨p :: pre, post, by rw [hsplit, List.cons_append], hpost⟩
    · rcases dictInsert_mem_of_pairwise p.osm_id p d hp kv hmem with ⟨hk, hv⟩ | ⟨hd, hne⟩
      · refine Or.inl ⟨[], rest, by simp [hv], ?_⟩
        intro q hq
        exact hrest q hq
      · refine Or.inr ⟨hd, ?_⟩
        intro q hq
        rw [List.mem_cons] at hq
        rcases hq with hq | hq
        · subst hq
          exact fun he => hne he.symm
        · exact hrest q hq

theorem processBatches_calls_mem (env : Nat → Nat → Bool) :
    ∀ (batches : List (List α)) (b acc : Nat),
      ∀ c ∈ (processBatches env b acc batches).calls, c.2 ∈ batches := by
  intro batches
  induction batches with
  | nil => intro b acc c hc; simp [processBatches] at hc
  | cons batch rest ih =>
    intro b acc c hc
    by_cases hr : (runBatchRetries (env b) MAX_RETRIES 0).1
    · simp only [processBatches, hr, if_true, List.mem_append] at hc
      rcases hc with hc | hc
      · have := List.eq_of_mem_replicate hc
        subst this
        exact List.mem_cons_self _ _
      · exact List.mem_cons_of_mem _ (ih (b + 1) (acc + batch.length) c hc)
    · simp only [processBatches, hr, if_false, Bool.false_eq_true] at hc
      have := List.eq_of_mem_replicate hc
      subst this
      exact List.mem_cons_self _ _

/-! ### The claims -/

/-- C1: for every document list and every `existing_count = k` with
`0 ≤ k ≤ total`, the ingestor submits exactly the documents `documents[k:]`,
in order: when every upsert succeeds, the committed batches are precisely
the consecutive `B`-sized slices of `documents[k:]` and their concatenation
in submission order is `documents[k:]`; moreover (even with failures) every
upsert call carries one of those slices, so no document among
`documents[:k]` is ever submitted. -/
theorem C1_resume_correctness (B : Nat) (docs : List α) (k : Nat)
    (env : Nat → Nat → Bool) (hB : 0 < B) (hk : k ≤ docs.length)
    (henv : ∀ b a, env b a = true) :
    (ingest B docs k env).committed = chunks B (docs.drop k) ∧
    ((ingest B docs k env).committed).flatten = docs.drop k ∧
    ∀ (env2 : Nat → Nat → Bool), ∀ c ∈ (ingest B docs k env2).calls,
      c.2 ∈ chunks B (docs.drop k) := by
  have hc := ingest_committed B docs k env henv
  refine ⟨hc, ?_, ?_⟩
  · rw [hc]
    exact chunks_flatten B hB (docs.drop k).length _ le_rfl
  · intro env2 c hcall
    by_cases h : docs.length ≤ k
    · simp [ingest, h] at hcall
    · simp only [ingest, h, if_false] at hcall
      exact processBatches_calls_mem env2 _ 0 0 c hcall

/-- Witness for C1 at `B = 2`, `documents = [0,1,2,3,4]`, `k = 2`,
all upserts succeeding. -/
theorem C1_resume_correctness_witness :
    0 < 2 ∧ 2 ≤ ([0, 1, 2, 3, 4] : List Nat).length ∧
    ((ingest 2 ([0, 1, 2, 3, 4] : List Nat) 2 (fun _ _ => true)).committed).flatten
      = [2, 3, 4] := by
  refine ⟨by decide, by decide, ?_⟩
  have h := C1_resume_correctness 2 [0, 1, 2, 3, 4] 2 (fun _ _ => true)
    (by decide) (by decide) (fun b a => rfl)
  rw [h.2.1]
  decide

/-- C2 (amended): whenever `existing_count ≥ total` the ingestor returns
immediately, performing zero upsert calls and committing nothing; it
returns no success count at all (Python `None`, modelled as `none`), not
the count `0`. -/
theorem C2_already_complete_noop (B : Nat) (docs : List α) (k : Nat)
    (env : Nat → Nat → Bool) (h : docs.length ≤ k) :
    ingest B docs k env = ⟨none, [], []⟩ := by
  simp [ingest, h]

/-- Witness for C2 at `documents = [0]`, `existing_count = 1`. -/
theorem C2_already_complete_noop_witness :
    ([0] : List Nat).length ≤ 1 ∧
    ingest 10 ([0] : List Nat) 1 (fun _ _ => true) = ⟨none, [], []⟩ :=
  ⟨by decide, C2_already_complete_noop 10 [0] 1 (fun _ _ => true) (by decide)⟩

/-- C2 counterexample: at `documents = [0]`, `existing_count = 1` the code
takes the `existing_count >= total_docs` branch of
`import_to_qdrant_with_langchain`, which is a bare `return`: the function
returns Python `None` (modelled `none`), not the success count `0` the
claim states; the zero-upsert part does hold. -/
theorem C2_counterexample :
    (import_to_qdrant_with_langchain ([0] : List Nat) 1 (fun _ _ => true)).returned
        = none ∧
    (import_to_qdrant_with_langchain ([0] : List Nat) 1 (fun _ _ => true)).returned
        ≠ some 0 ∧
    (import_to_qdrant_with_langchain ([0] : List Nat) 1 (fun _ _ => true)).calls
        = [] := by
  decide

/-- C3: if every commit attempt at batch `j` fails (rate limit) while each
batch before it succeeds within its own retry budget, the run attempts
batch `j` exactly `MAX_RETRIES = 3` times, commits exactly the batches
before `j`, returns the cumulative count of the documents in those
batches (the failed batch contributing nothing), and never touches a
batch after `j`. -/
theorem C3_retry_bound (B : Nat) (docs : List α) (k : Nat)
    (env : Nat → Nat → Bool) (j : Nat) (hk : k < docs.length)
    (hj : j < (chunks B (docs.drop k)).length)
    (hfail : ∀ a, env j a = false)
    (hgood : ∀ b, b < j → ∃ a, a < MAX_RETRIES ∧ env b a = true) :
    (ingest B docs k env).returned =
      some ((((chunks B (docs.drop k)).take j).map List.length).sum) ∧
    (ingest B docs k env).calls.countP (fun c => c.1 == j) = MAX_RETRIES ∧
    (ingest B docs k env).committed = (chunks B (docs.drop k)).take j ∧
    ∀ c ∈ (ingest B docs k env).calls, c.1 ≤ j := by
  have hnot : ¬ docs.length ≤ k := not_le.mpr hk
  have hmain := processBatches_failAt_general env j (chunks B (docs.drop k)) 0 0 hj
    (by intro a; simpa using hfail a)
    (by intro i hi
        obtain ⟨a, ha, hea⟩ := hgood i hi
        exact ⟨a, ha, by simpa using hea⟩)
  have hres : ingest B docs k env = processBatches env 0 0 (chunks B (docs.drop k)) := by
    simp [ingest, hnot]
  rw [hres]
  refine ⟨by rw [hmain.1]; simp, by simpa using hmain.2.2.1, hmain.2.1, ?_⟩
  intro c hc
  have := hmain.2.2.2 c hc
  omega

/-- Witness for C3 at `B = 2`, `documents = [0,1,2,3,4,5]`, `k = 0`, with
batch 0 succeeding on its first attempt and batch 1 always failing. -/
theorem C3_retry_bound_witness :
    (0 : Nat) < 6 ∧
    1 < (chunks 2 (List.drop 0 ([0, 1, 2, 3, 4, 5] : List Nat))).length ∧
    (ingest 2 ([0, 1, 2, 3, 4, 5] : List Nat) 0 (fun b _ => b == 0)).returned
        = some 2 ∧
    (ingest 2 ([0, 1, 2, 3, 4, 5] : List Nat) 0 (fun b _ => b == 0)).calls.countP
        (fun c => c.1 == 1) = MAX_RETRIES ∧
    (ingest 2 ([0, 1, 2, 3, 4, 5] : List Nat) 0 (fun b _ => b == 0)).committed
        = [[0, 1]] := by
  have h := C3_retry_bound 2 [0, 1, 2, 3, 4, 5] 0 (fun b _ => b == 0) 1
    (by decide) (by decide) (fun a => rfl)
    (by intro b hb
        have hb0 : b = 0 := by omega
        subst hb0
        exact ⟨0, by decide, rfl⟩)
  refine ⟨by decide, by decide, ?_, h.2.1, ?_⟩
  · rw [h.1]
    decide
  · rw [h.2.2.1]
    decide

/-- C4: for every work list and batch size `B > 0`, the batches committed
by the ingestor (all upserts succeeding) partition the work list exactly:
their concatenation is `documents[k:]`, every batch except possibly the
last has size exactly `B`, and every batch is nonempty of size at most
`B`; in particular 12 documents with `B = 5`, `existing_count = 0` yield
batch sizes `[5, 5, 2]` and a final success count of 12. -/
theorem C4_batch_partition (B : Nat) (docs : List α) (k : Nat)
    (env : Nat → Nat → Bool) (hB : 0 < B) (henv : ∀ b a, env b a = true) :
    ((ingest B docs k env).committed).flatten = docs.drop k ∧
    (∀ c ∈ ((ingest B docs k env).committed).dropLast, c.length = B) ∧
    (∀ c ∈ (ingest B docs k env).committed, 0 < c.length ∧ c.length ≤ B) ∧
    (chunks 5 (List.range 12)).map List.length = [5, 5, 2] ∧
    (ingest 5 (List.range 12) 0 (fun _ _ => true)).returned = some 12 := by
  have hc := ingest_committed B docs k env henv
  refine ⟨?_, ?_, ?_, by decide, by decide⟩
  · rw [hc]
    exact chunks_flatten B hB (docs.drop k).length _ le_rfl
  · rw [hc]
    exact chunks_dropLast_length B hB (docs.drop k).length _ le_rfl
  · rw [hc]
    exact chunks_mem_length B hB (docs.drop k).length _ le_rfl

/-- Witness for C4 at `B = 5`, the 12-document scenario. -/
theorem C4_batch_partition_witness :
    (0 : Nat) < 5 ∧
    ((ingest 5 (List.range 12) 0 (fun _ _ => true)).committed).flatten
      = List.range 12 := by
  refine ⟨by decide, ?_⟩
  have h := C4_batch_partition 5 (List.range 12) 0 (fun _ _ => true)
    (by decide) (fun b a => rfl)
  rw [h.1]
  decide

/-- C5: the ranking score equals `(C*m + review_count*rating) / (C +
review_count)` normalized by `(score/10)*100` with `C = 10`, `m = 7.0`;
a null rating yields exactly `50.0` for every review count, in particular
at `review_count = 0`. -/
theorem C5_score_formula :
    (∀ (r : ℚ) (rc : ℕ),
      calculate_score (some r) rc
        = (((10 * 7 + (rc : ℚ) * r) / (10 + (rc : ℚ))) / 10) * 100) ∧
    (∀ rc : ℕ, calculate_score none rc = 50) ∧
    calculate_score none 0 = 50 :=
  ⟨fun _ _ => rfl, fun _ => rfl, rfl⟩

/-- C6: the score is monotonically non-decreasing in the rating for fixed
review count, and non-decreasing in the review count for a fixed rating
strictly above the prior mean `m = 7`. -/
theorem C6_score_monotone :
    (∀ (rc : ℕ) (r1 r2 : ℚ), r1 ≤ r2 →
      calculate_score (some r1) rc ≤ calculate_score (some r2) rc) ∧
    (∀ (r : ℚ) (rc1 rc2 : ℕ), 7 < r → rc1 ≤ rc2 →
      calculate_score (some r) rc1 ≤ calculate_score (some r) rc2) := by
  constructor
  · intro rc r1 r2 h
    show (((10 * 7 + (rc : ℚ) * r1) / (10 + (rc : ℚ))) / 10) * 100
        ≤ (((10 * 7 + (rc : ℚ) * r2) / (10 + (rc : ℚ))) / 10) * 100
    have hpos : (0 : ℚ) < 10 + (rc : ℚ) := by positivity
    have hnn : (0 : ℚ) ≤ (rc : ℚ) := Nat.cast_nonneg rc
    gcongr
  · intro r rc1 rc2 h7 hle
    show (((10 * 7 + (rc1 : ℚ) * r) / (10 + (rc1 : ℚ))) / 10) * 100
        ≤ (((10 * 7 + (rc2 : ℚ) * r) / (10 + (rc2 : ℚ))) / 10) * 100
    have h1 : (0 : ℚ) < 10 + (rc1 : ℚ) := by positivity
    have h2 : (0 : ℚ) < 10 + (rc2 : ℚ) := by positivity
    have hc : (rc1 : ℚ) ≤ (rc2 : ℚ) := Nat.cast_le.mpr hle
    have key : (10 * 7 + (rc1 : ℚ) * r) / (10 + (rc1 : ℚ))
        ≤ (10 * 7 + (rc2 : ℚ) * r) / (10 + (rc2 : ℚ)) := by
      rw [div_le_div_iff h1 h2]
      nlinarith [mul_nonneg (sub_nonneg.mpr hc) (sub_nonneg.mpr (le_of_lt h7))]
    rw [mul_le_mul_right (by norm_num : (0 : ℚ) < 100),
      div_le_div_right (by norm_num : (0 : ℚ) < 10)]
    exact key

/-- Witness for C6: ratings 6 ≤ 8 at 3 reviews, and review counts 1 ≤ 5
at rating 8 > 7. -/
theorem C6_score_monotone_witness :
    ((6 : ℚ) ≤ 8 ∧ calculate_score (some 6) 3 ≤ calculate_score (some 8) 3) ∧
    ((7 : ℚ) < 8 ∧ (1 : ℕ) ≤ 5 ∧
      calculate_score (some 8) 1 ≤ calculate_score (some 8) 5) :=
  ⟨⟨by decide, C6_score_monotone.1 3 6 8 (by decide)⟩,
   ⟨by decide, by decide, C6_score_monotone.2 8 1 5 (by decide) (by decide)⟩⟩

/-- C7 counterexample: in the input
`[{name:"a",url:"u"}, {name:"a",url:"v"}, {name:"a",url:"v"}]` two records
share the normalized key `("a","v")` but zero of them survive the dedup
(both are skipped because the name `"a"` was already seen via the first
record), refuting "when several input records share a normalized key,
exactly one survives". -/
theorem C7_counterexample :
    (([⟨"a", "u", 0⟩, ⟨"a", "v", 0⟩, ⟨"a", "v", 0⟩] : List Rest).countP
      (fun r => normName r == ['a'] && r.url == "v")) = 2 ∧
    ((deduplicate_and_rank [⟨"a", "u", 0⟩, ⟨"a", "v", 0⟩, ⟨"a", "v", 0⟩]).countP
      (fun r => normName r == ['a'] && r.url == "v")) = 0 := by
  decide

/-- C7 (amended): every pair of distinct output records has a distinct
normalized name and a distinct URL, so at most one record per normalized
key survives; a surviving record occurs in the input before any other
record sharing its full key (first-seen wins when anything survives); a
key group can however be wiped out entirely by collisions with other keys,
so "exactly one survives" does not hold in general.  The scenario pair
`{name:"Ho Guom Cafe",url:"a"}`, `{name:"ho guom cafe",url:"a"}` dedups to
its first record. -/
theorem C7_dedup_keys (l : List Rest) :
    (deduplicate_and_rank l).Pairwise
      (fun a b => normName a ≠ normName b ∧ a.url ≠ b.url) ∧
    (∀ (kn : List Char) (u : String),
      (deduplicate_and_rank l).countP
        (fun r => normName r == kn && r.url == u) ≤ 1) ∧
    (∀ r ∈ deduplicate_and_rank l,
      ∃ pre post, l = pre ++ r :: post ∧
        ∀ x ∈ pre, ¬(normName x = normName r ∧ x.url = r.url)) ∧
    deduplicate_and_rank [⟨"Ho Guom Cafe", "a", 0⟩, ⟨"ho guom cafe", "a", 0⟩]
      = [⟨"Ho Guom Cafe", "a", 0⟩] := by
  have hperm := List.perm_insertionSort scoreGe (dedupAux [] [] l)
  have hpair0 := dedupAux_pairwise l [] []
  have hsym : ∀ {x y : Rest},
      (normName x ≠ normName y ∧ x.url ≠ y.url) →
      (normName y ≠ normName x ∧ y.url ≠ x.url) :=
    fun h => ⟨h.1.symm, h.2.symm⟩
  have hpair : (deduplicate_and_rank l).Pairwise
      (fun a b => normName a ≠ normName b ∧ a.url ≠ b.url) :=
    (hperm.pairwise_iff hsym).mpr hpair0
  refine ⟨hpair, ?_, ?_, by decide⟩
  · intro kn u
    exact countP_le_one_of_pairwise_ne _ (hpair.imp fun h => h.1) kn u
  · intro r hr
    have hr0 : r ∈ dedupAux [] [] l := hperm.mem_iff.mp hr
    exact dedupAux_first_occurrence l [] [] r hr0

/-- Witness for C7 (amended), instantiating the first-seen property at the
surviving record of the scenario pair. -/
theorem C7_dedup_keys_witness :
    (⟨"Ho Guom Cafe", "a", 0⟩ : Rest) ∈
      deduplicate_and_rank [⟨"Ho Guom Cafe", "a", 0⟩, ⟨"ho guom cafe", "a", 0⟩] ∧
    ∃ pre post,
      ([⟨"Ho Guom Cafe", "a", 0⟩, ⟨"ho guom cafe", "a", 0⟩] : List Rest)
        = pre ++ (⟨"Ho Guom Cafe", "a", 0⟩ : Rest) :: post ∧
      ∀ x ∈ pre, ¬(normName x = normName ⟨"Ho Guom Cafe", "a", 0⟩ ∧ x.url = "a") := by
  refine ⟨by decide, ?_⟩
  exact (C7_dedup_keys [⟨"Ho Guom Cafe", "a", 0⟩, ⟨"ho guom cafe", "a", 0⟩]).2.2.1
    _ (by decide)

/-- C8: the dedup-and-rank step is idempotent: applied to its own output
it returns that output unchanged (same records, same order). -/
theorem C8_dedup_idempotent (l : List Rest) :
    deduplicate_and_rank (deduplicate_and_rank l) = deduplicate_and_rank l := by
  have hperm := List.perm_insertionSort scoreGe (dedupAux [] [] l)
  have hpair0 := dedupAux_pairwise l [] []
  have hsym : ∀ {x y : Rest},
      (normName x ≠ normName y ∧ x.url ≠ y.url) →
      (normName y ≠ normName x ∧ y.url ≠ x.url) :=
    fun h => ⟨h.1.symm, h.2.symm⟩
  have hpairS : (deduplicate_and_rank l).Pairwise
      (fun a b => normName a ≠ normName b ∧ a.url ≠ b.url) :=
    (hperm.pairwise_iff hsym).mpr hpair0
  have hsorted := List.sorted_insertionSort scoreGe (dedupAux [] [] l)
  show List.insertionSort scoreGe (dedupAux [] [] (deduplicate_and_rank l))
      = deduplicate_and_rank l
  rw [dedupAux_eq_self (deduplicate_and_rank l) [] []
      (hpairS.imp fun h => h.1) (hpairS.imp fun h => h.2)
      (fun r _ => ⟨List.not_mem_nil _, List.not_mem_nil _⟩)]
  exact hsorted.insertionSort_eq

/-- C9: the deduplicated output is sorted in descending order of score;
records of equal score appear in dedup-pass order (stability, expressed as
filter-invariance on every score class), and the dedup pass itself
preserves the input order (it is a sublist of the input); the whole step
is a function of the input list. -/
theorem C9_sorted_stable (l : List Rest) :
    (deduplicate_and_rank l).Pairwise (fun a b => b.score ≤ a.score) ∧
    (∀ s : ℚ, (deduplicate_and_rank l).filter (fun x => x.score == s)
      = (dedupAux [] [] l).filter (fun x => x.score == s)) ∧
    List.Sublist (dedupAux [] [] l) l := by
  refine ⟨?_, ?_, dedupAux_sublist l [] []⟩
  · exact (List.sorted_insertionSort scoreGe (dedupAux [] [] l)).imp fun h => h
  · intro s
    exact insertionSort_filter s (dedupAux [] [] l)

/-- C10: the OSM collector's dict-based dedup keeps at most one POI per
`osm_id`, and a kept POI is the last-seen record with its id in
accumulation order (no later record shares its id); in particular of two
records with the same id the second survives, not the first. -/
theorem C10_osm_last_seen (l : List POI) :
    (collect_pois l).Pairwise (fun a b => a.osm_id ≠ b.osm_id) ∧
    (∀ p ∈ collect_pois l,
      ∃ pre post, l = pre ++ p :: post ∧ ∀ q ∈ post, q.osm_id ≠ p.osm_id) ∧
    collect_pois [⟨"n1", "first"⟩, ⟨"n1", "second"⟩] = [⟨"n1", "second"⟩] := by
  obtain ⟨hp, hinv, hocc⟩ := osmFold_spec l [] (by simp) (by simp)
  refine ⟨?_, ?_, by decide⟩
  · show ((osmFold l []).map Prod.snd).Pairwise (fun a b => a.osm_id ≠ b.osm_id)
    rw [List.pairwise_map]
    refine hp.imp_of_mem ?_
    intro a b ha hb hne
    rw [hinv a ha, hinv b hb]
    exact hne
  · intro p hp2
    obtain ⟨kv, hkv, hsnd⟩ := List.mem_map.mp hp2
    rcases hocc kv hkv with hres | ⟨hmem, _⟩
    · obtain ⟨pre, post, hsplit, hpost⟩ := hres
      refine ⟨pre, post, by rw [← hsnd]; exact hsplit, ?_⟩
      intro q hq
      rw [← hsnd, hinv kv hkv]
      exact hpost q hq
    · simp at hmem

/-- Witness for C10, instantiating the last-seen property at the survivor
of a two-record collision. -/
theorem C10_osm_last_seen_witness :
    (⟨"n1", "second"⟩ : POI) ∈ collect_pois [⟨"n1", "first"⟩, ⟨"n1", "second"⟩] ∧
    ∃ pre post,
      ([⟨"n1", "first"⟩, ⟨"n1", "second"⟩] : List POI)
        = pre ++ (⟨"n1", "second"⟩ : POI) :: post ∧
      ∀ q ∈ post, q.osm_id ≠ "n1" := by
  refine ⟨by decide, ?_⟩
  exact (C10_osm_last_seen [⟨"n1", "first"⟩, ⟨"n1", "second"⟩]).2.1 _ (by decide)

end MapSpec
